import Mathlib

/-!
# Verification of the `archiver` tool (`src/main.rs`)

Shallow embedding of the archiver: a CLI tool that resolves a list of
input paths to regular files, computes an MD5 digest for each, writes the
files into a tar container wrapped in a compression encoder, and appends a
`meta.json` manifest entry last.

Bytes are modelled as `Nat` (values < 256), file contents as `List Nat`,
paths as lists of components, and the filesystem as a finite tree.
External crates (`md5`, `tar`, `flate2`/`bzip2`) are embedded at the level
of their documented behaviour; the repository's own code (`main.rs`) is
embedded function by function.
-/

namespace Archiver

/-- The `Comp` enumeration from `main.rs` (`Bzip2 | Gzip | Zlib`). -/
inductive Comp where
  | bzip2
  | gzip
  | zlib
deriving DecidableEq, Repr

/-- `impl Display for Comp`: the compression suffix string. -/
def Comp.repr : Comp → String
  | .bzip2 => "bz2"
  | .gzip => "gz"
  | .zlib => "zlib"

/-- Metadata of a regular file as the OS reports it (`std::fs::Metadata`):
its byte content plus the permission mode, owner/group ids and
modification time that `tar::Builder::append_file` copies into headers. -/
structure FileMeta where
  content : List Nat
  mode : Nat
  uid : Nat
  gid : Nat
  mtime : Nat
deriving DecidableEq, Repr

mutual
/-- A node of the model filesystem: a regular file with metadata, a
directory with a named-children list, or a special file (exists on disk
but is neither a regular file nor a directory, e.g. a socket). -/
inductive FSNode where
  | file (meta : FileMeta)
  | dir (children : FSEntries)
  | special
deriving Repr

/-- Directory listing, in the order the OS returns entries from
`fs::read_dir`. -/
inductive FSEntries where
  | nil
  | cons (name : String) (node : FSNode) (rest : FSEntries)
deriving Repr
end

/-- A filesystem path, split into components (`PathBuf`).  `absolute`
records a leading `/`, which only matters for rendering the path back to
a string. -/
structure RPath where
  absolute : Bool
  components : List String
deriving DecidableEq, Repr

/-- Render a path back to the string `as_os_str().to_string_lossy()`
produces (components join with `/`, leading `/` when absolute). -/
def RPath.render (p : RPath) : String :=
  (if p.absolute then "/" else "") ++ String.intercalate "/" p.components

mutual
/-- Follow a path down the filesystem tree. `none` means the path does
not exist. -/
def lookupNode : FSNode → List String → Option FSNode
  | node, [] => some node
  | .dir cs, n :: rest => lookupIn cs n rest
  | _, _ :: _ => none

/-- Find the child named `n` in a directory listing and keep descending. -/
def lookupIn : FSEntries → String → List String → Option FSNode
  | .nil, _, _ => none
  | .cons name node tail, n, rest =>
      if name = n then lookupNode node rest else lookupIn tail n rest
end

/-- `Path::exists` on the model filesystem. -/
def pathExists (fs : FSNode) (p : RPath) : Bool :=
  (lookupNode fs p.components).isSome

/-- `Path::is_file`: the path resolves to a regular file. -/
def isFile (fs : FSNode) (p : RPath) : Bool :=
  match lookupNode fs p.components with
  | some (.file _) => true
  | _ => false

/-- `Path::is_dir`: the path resolves to a directory. -/
def isDir (fs : FSNode) (p : RPath) : Bool :=
  match lookupNode fs p.components with
  | some (.dir _) => true
  | _ => false

/-- Content of the regular file at `p`, when there is one. -/
def fileContent (fs : FSNode) (p : RPath) : Option (List Nat) :=
  match lookupNode fs p.components with
  | some (.file m) => some m.content
  | _ => none

/-- Metadata of the regular file at `p`, when there is one. -/
def fileMeta (fs : FSNode) (p : RPath) : Option FileMeta :=
  match lookupNode fs p.components with
  | some (.file m) => some m
  | _ => none

/-! ## Rust `Path` string operations

`sanitize_path` manipulates the final path component through
`Path::extension`, `str::split_once`, `Path::with_file_name`,
`Path::push` and `Path::with_extension`.  These are modelled on
character lists, following the documented behaviour of the Rust
standard library. -/

/-- `str::split_once(c)`: split at the first occurrence of `c`,
returning the parts before and after it, or `none` when `c` does not
occur. -/
def splitOnceChars (c : Char) : List Char → Option (List Char × List Char)
  | [] => none
  | a :: rest =>
      if a = c then some ([], rest)
      else
        match splitOnceChars c rest with
        | some (pre, post) => some (a :: pre, post)
        | none => none

/-- Rust `split_file_at_dot` on a file name: the portions before and
after the last `.`, where a name whose only `.` is leading (a hidden
file) or the name `..` has no extension. -/
def splitFileAtDot (cs : List Char) : List Char × Option (List Char) :=
  if cs = ['.', '.'] then (cs, none)
  else
    match splitOnceChars '.' cs.reverse with
    | some (afterRev, beforeRev) =>
        if beforeRev = [] then (cs, none) else (beforeRev.reverse, some afterRev.reverse)
    | none => (cs, none)

/-- `Path::file_name`: the final component. -/
def RPath.fileName (p : RPath) : Option String :=
  p.components.getLast?

/-- `Path::extension`: extension of the final component, per the Rust
rules (`none` when there is no `.`, or the only `.` is leading). -/
def RPath.extension (p : RPath) : Option String :=
  match p.fileName with
  | none => none
  | some f => (splitFileAtDot f.data).2.map fun cs => String.mk cs

/-- `Path::with_file_name`: pop the final component (when there is one)
and push the new name. -/
def RPath.withFileName (p : RPath) (s : String) : RPath :=
  ⟨p.absolute, p.components.dropLast ++ [s]⟩

/-- `PathBuf::push` of a single normal component. -/
def RPath.push (p : RPath) (s : String) : RPath :=
  ⟨p.absolute, p.components ++ [s]⟩

/-- `Path::with_extension`: replace the extension of the final
component with `ext` (the stem keeps everything before the last `.`).
When the path has no final component the path is returned unchanged,
as `set_extension` then does nothing. -/
def RPath.withExtension (p : RPath) (ext : String) : RPath :=
  match p.fileName with
  | none => p
  | some f =>
      let stem := (splitFileAtDot f.data).1
      p.withFileName (String.mk stem ++ "." ++ ext)

/-- `fn sanitize_path(mut path: PathBuf, compression: Comp) -> PathBuf`.
Note `path.is_dir()` probes the filesystem, so the model takes `fs`. -/
def sanitizePath (fs : FSNode) (path : RPath) (compression : Comp) : RPath :=
  let path :=
    if !(isDir fs path) then
      if (path.extension).isSome then
        let filename := (path.fileName).getD ""
        let stem := ((splitOnceChars '.' filename.data).map
          fun pr => String.mk pr.1).getD ""
        path.withFileName stem
      else path
    else path.push "out"
  path.withExtension ("tar." ++ compression.repr)

/-! ## MD5 (the `md5` crate)

A concrete implementation of MD5 over byte lists (bytes are `Nat`s below
256, words are `Nat`s reduced mod `2^32`).  `md5::Context` is modelled by
the sequence of bytes consumed so far: `Context::consume` appends input
bytes to the message, and `Context::compute` runs MD5 over the whole
accumulated message. -/

/-- `2^32`, the word modulus of MD5. -/
def M32 : Nat := 4294967296

/-- Rotate a 32-bit word left by `s` bits. -/
def rotl32 (x s : Nat) : Nat :=
  ((x <<< s) % M32) ||| (x >>> (32 - s))

/-- The 64 MD5 sine-derived round constants. -/
def md5K : List Nat :=
  [0xd76aa478, 0xe8c7b756, 0x242070db, 0xc1bdceee,
   0xf57c0faf, 0x4787c62a, 0xa8304613, 0xfd469501,
   0x698098d8, 0x8b44f7af, 0xffff5bb1, 0x895cd7be,
   0x6b901122, 0xfd987193, 0xa679438e, 0x49b40821,
   0xf61e2562, 0xc040b340, 0x265e5a51, 0xe9b6c7aa,
   0xd62f105d, 0x02441453, 0xd8a1e681, 0xe7d3fbc8,
   0x21e1cde6, 0xc33707d6, 0xf4d50d87, 0x455a14ed,
   0xa9e3e905, 0xfcefa3f8, 0x676f02d9, 0x8d2a4c8a,
   0xfffa3942, 0x8771f681, 0x6d9d6122, 0xfde5380c,
   0xa4beea44, 0x4bdecfa9, 0xf6bb4b60, 0xbebfbc70,
   0x289b7ec6, 0xeaa127fa, 0xd4ef3085, 0x04881d05,
   0xd9d4d039, 0xe6db99e5, 0x1fa27cf8, 0xc4ac5665,
   0xf4292244, 0x432aff97, 0xab9423a7, 0xfc93a039,
   0x655b59c3, 0x8f0ccc92, 0xffeff47d, 0x85845dd1,
   0x6fa87e4f, 0xfe2ce6e0, 0xa3014314, 0x4e0811a1,
   0xf7537e82, 0xbd3af235, 0x2ad7d2bb, 0xeb86d391]

/-- The 64 MD5 per-round left-rotation amounts. -/
def md5S : List Nat :=
  [7, 12, 17, 22, 7, 12, 17, 22, 7, 12, 17, 22, 7, 12, 17, 22,
   5, 9, 14, 20, 5, 9, 14, 20, 5, 9, 14, 20, 5, 9, 14, 20,
   4, 11, 16, 23, 4, 11, 16, 23, 4, 11, 16, 23, 4, 11, 16, 23,
   6, 10, 15, 21, 6, 10, 15, 21, 6, 10, 15, 21, 6, 10, 15, 21]

/-- Round mixing function and message-word index of round `i`. -/
def md5FG (i b c d : Nat) : Nat × Nat :=
  if i < 16 then ((b &&& c) ||| ((b ^^^ 0xffffffff) &&& d), i)
  else if i < 32 then ((d &&& b) ||| ((d ^^^ 0xffffffff) &&& c), (5 * i + 1) % 16)
  else if i < 48 then (b ^^^ c ^^^ d, (3 * i + 5) % 16)
  else (c ^^^ (b ||| (d ^^^ 0xffffffff)), (7 * i) % 16)

/-- The 64 rounds over one message block `M` (16 words), from round
`i`, with `fuel` rounds remaining. -/
def md5Steps (M : List Nat) : Nat → Nat → Nat × Nat × Nat × Nat → Nat × Nat × Nat × Nat
  | 0, _, st => st
  | fuel + 1, i, (a, b, c, d) =>
      let fg := md5FG i b c d
      let f := (fg.1 + a + md5K.getD i 0 + M.getD fg.2 0) % M32
      md5Steps M fuel (i + 1) (d, (b + rotl32 f (md5S.getD i 0)) % M32, b, c)

/-- Fold one 16-word block into the running state. -/
def md5Block (st : Nat × Nat × Nat × Nat) (M : List Nat) : Nat × Nat × Nat × Nat :=
  let r := md5Steps M 64 0 st
  ((st.1 + r.1) % M32, (st.2.1 + r.2.1) % M32,
   (st.2.2.1 + r.2.2.1) % M32, (st.2.2.2 + r.2.2.2) % M32)

/-- Group a byte list into little-endian 32-bit words. -/
def leWords : List Nat → List Nat
  | b0 :: b1 :: b2 :: b3 :: rest =>
      (b0 + 256 * b1 + 65536 * b2 + 16777216 * b3) :: leWords rest
  | _ => []

/-- The `k` little-endian bytes of `n`. -/
def leBytes : Nat → Nat → List Nat
  | 0, _ => []
  | k + 1, n => (n % 256) :: leBytes k (n / 256)

/-- Fold successive 64-byte blocks into the state (`fuel` bounds the
number of iterations; each iteration consumes 64 bytes). -/
def md5Blocks : Nat → Nat × Nat × Nat × Nat → List Nat → Nat × Nat × Nat × Nat
  | _, st, [] => st
  | 0, st, _ => st
  | fuel + 1, st, bytes =>
      md5Blocks fuel (md5Block st (leWords (bytes.take 64))) (bytes.drop 64)

/-- MD5 padding: `0x80`, zeros to 56 mod 64, then the bit length as a
64-bit little-endian quantity. -/
def md5Pad (msg : List Nat) : List Nat :=
  let len := msg.length
  msg ++ [0x80] ++ List.replicate ((120 - (len + 1) % 64) % 64) 0
      ++ leBytes 8 ((8 * len) % (M32 * M32))

/-- The MD5 initial state. -/
def md5Init : Nat × Nat × Nat × Nat :=
  (0x67452301, 0xefcdab89, 0x98badcfe, 0x10325476)

/-- MD5 of a byte list, as the 16-byte digest. -/
def md5 (msg : List Nat) : List Nat :=
  let padded := md5Pad msg
  let st := md5Blocks padded.length md5Init padded
  leBytes 4 st.1 ++ leBytes 4 st.2.1 ++ leBytes 4 st.2.2.1 ++ leBytes 4 st.2.2.2

/-- One lowercase hexadecimal digit. -/
def hexDigit (n : Nat) : Char :=
  "0123456789abcdef".data.getD n '?'

/-- `format!("{:x}", digest)`: each digest byte as two lowercase hex
digits. -/
def bytesHex (bs : List Nat) : String :=
  String.mk (bs.flatMap fun b => [hexDigit (b / 16 % 16), hexDigit (b % 16)])

/-- String to its byte list (ASCII contents in this development). -/
def strBytes (s : String) : List Nat :=
  s.data.map fun c => c.toNat % 256

/-! ## Digest engine: `calculate_md5` -/

/-- `md5::Context`, modelled by the bytes consumed so far:
`Context::consume` appends data to the message being hashed and
`Context::compute` hashes the whole message. -/
abbrev Md5Context := List Nat

/-- `md5::Context::new()`. -/
def md5ContextNew : Md5Context := []

/-- `md5::Context::consume(data)`. -/
def md5Consume (ctx : Md5Context) (data : List Nat) : Md5Context :=
  ctx ++ data

/-- `md5::Context::compute()`. -/
def md5Compute (ctx : Md5Context) : List Nat :=
  md5 ctx

/-- The read buffer size of `calculate_md5`: `[0; 4194304]` (4 MiB). -/
def BUF_SIZE : Nat := 4194304

/-- The read loop of `calculate_md5`: each `file.read(&mut buf)` yields
the next up-to-4-MiB chunk of the remaining bytes, which is folded into
the context; the loop ends when a read returns 0 bytes.  `fuel` bounds
the number of iterations (each iteration consumes at least one byte, so
the initial content length is enough fuel). -/
def md5ReadLoop : Nat → Md5Context → List Nat → Md5Context
  | _, ctx, [] => ctx
  | 0, ctx, _ => ctx
  | fuel + 1, ctx, rest =>
      md5ReadLoop fuel (md5Consume ctx (rest.take BUF_SIZE)) (rest.drop BUF_SIZE)

/-- `fn calculate_md5<P: AsRef<Path>>(file: P) -> Result<Digest>`:
`File::open` succeeds (and reads succeed) exactly when the path is a
regular file in the model. -/
def calculateMd5 (fs : FSNode) (p : RPath) : Option (List Nat) :=
  match fileMeta fs p with
  | some m => some (md5Compute (md5ReadLoop m.content.length md5ContextNew m.content))
  | none => none

/-! ## Path resolver: `read_dir` and `resolve_paths` -/

/-- The error cases of `main`: the `bail!` in `resolve_paths` carrying
the offending path (PathNotFound), and any propagated I/O error. -/
inductive ArcError where
  | pathNotFound (path : String)
  | ioFailure
deriving DecidableEq, Repr

mutual
/-- `fn read_dir(dir: PathBuf, entries: &mut Vec<PathBuf>)`: if `dir`
is a directory, walk its listing; otherwise leave `entries` unchanged.
`dirPath` is the path of `node` on disk. -/
def readDirNode (dirPath : RPath) (node : FSNode) (entries : List RPath) : List RPath :=
  match node with
  | .dir cs => readDirEntries dirPath cs entries
  | _ => entries

/-- The `for entry in fs::read_dir(dir)?` loop body: a child that is a
directory is recursed into; any other child is pushed. -/
def readDirEntries (dirPath : RPath) (cs : FSEntries) (entries : List RPath) : List RPath :=
  match cs with
  | .nil => entries
  | .cons name child rest =>
      let p := dirPath.push name
      let entries' :=
        match child with
        | .dir _ => readDirNode p child entries
        | _ => entries ++ [p]
      readDirEntries dirPath rest entries'
end

/-- The `for path in paths` loop of `resolve_paths`, with the `entries`
vector threaded through. -/
def resolvePathsLoop (fs : FSNode) : List RPath → List RPath → Except ArcError (List RPath)
  | [], entries => .ok entries
  | p :: rest, entries =>
      if !(pathExists fs p) then .error (.pathNotFound p.render)
      else if isFile fs p then resolvePathsLoop fs rest (entries ++ [p])
      else if isDir fs p then
        resolvePathsLoop fs rest
          (match lookupNode fs p.components with
           | some n => readDirNode p n entries
           | none => entries)
      else resolvePathsLoop fs rest entries

/-- `fn resolve_paths(paths: Vec<PathBuf>) -> Result<Vec<PathBuf>>`. -/
def resolvePaths (fs : FSNode) (paths : List RPath) : Except ArcError (List RPath) :=
  resolvePathsLoop fs paths []

/-! ## Tar headers (`tar` crate) -/

/-- A tar header, with the fields the program sets.  `typeflag` is the
entry-type byte (48, ASCII `0`, for a regular file). -/
structure Header where
  name : String
  mode : Nat
  uid : Nat
  gid : Nat
  size : Nat
  mtime : Nat
  typeflag : Nat
  devmajor : Nat
  devminor : Nat
  cksum : Nat
deriving DecidableEq, Repr

/-- A numeric tar header field: `w - 1` zero-padded octal ASCII digits
followed by a NUL byte. -/
def octField (w n : Nat) : List Nat :=
  ((List.range (w - 1)).reverse.map fun i => 48 + (n / 8 ^ i) % 8) ++ [0]

/-- Truncate or zero-pad a byte list to exactly `k` bytes. -/
def padTo (k : Nat) (bs : List Nat) : List Nat :=
  bs.take k ++ List.replicate (k - bs.length) 0

/-- The 512 bytes of a GNU tar header block, with the 8 checksum bytes
supplied by the caller (the checksum is computed with that field as
eight ASCII spaces). -/
def headerBytesWith (h : Header) (cksumField : List Nat) : List Nat :=
  padTo 100 (strBytes h.name) ++ octField 8 h.mode ++ octField 8 h.uid ++
  octField 8 h.gid ++ octField 12 h.size ++ octField 12 h.mtime ++
  cksumField ++ [h.typeflag] ++ List.replicate 100 0 ++
  [117, 115, 116, 97, 114, 32, 32, 0] ++
  List.replicate 32 0 ++ List.replicate 32 0 ++
  octField 8 h.devmajor ++ octField 8 h.devminor ++ List.replicate 167 0

/-- The tar header checksum: the sum of the 512 header bytes with the
checksum field read as eight spaces (`Header::set_cksum`'s algorithm). -/
def tarHeaderChecksum (h : Header) : Nat :=
  (headerBytesWith h (List.replicate 8 32)).sum

/-- `header.set_cksum()`. -/
def setCksum (h : Header) : Header :=
  { h with cksum := tarHeaderChecksum h }

/-- The entry-type byte of `EntryType::file()`. -/
def REGTYPE : Nat := 48

/-- `fn create_header<P>(path: P, size: u64) -> Result<Header>`: the
manifest header built in `main.rs`, with the run's capture time `now`
(the code calls `current_time()` for `set_mtime`). -/
def createHeader (path : String) (size : Nat) (now : Nat) : Header :=
  setCksum
    { name := path, mode := 0o644, uid := 0, gid := 0, size := size,
      mtime := now, typeflag := REGTYPE, devmajor := 0, devminor := 0, cksum := 0 }

/-- The header `tar::Builder::append_file` writes for a file entry: the
mode, uid, gid and mtime come from the file's own on-disk metadata
(`Header::set_metadata`), the size from the file length. -/
def appendFileHeader (path : String) (m : FileMeta) : Header :=
  setCksum
    { name := path, mode := m.mode, uid := m.uid, gid := m.gid,
      size := m.content.length, mtime := m.mtime, typeflag := REGTYPE,
      devmajor := 0, devminor := 0, cksum := 0 }

/-! ## The checksum map (`HashMap<String, String>`) -/

/-- `HashMap::insert`: replaces any earlier binding of the key (the
model keeps an association list whose keys stay distinct). -/
def hmInsert (m : List (String × String)) (k v : String) : List (String × String) :=
  (m.filter fun p => p.1 != k) ++ [(k, v)]

/-- `HashMap::get`. -/
def hmLookup (m : List (String × String)) (k : String) : Option String :=
  (m.find? fun p => p.1 == k).map Prod.snd

/-- The key set of the map. -/
def hmKeys (m : List (String × String)) : List String :=
  m.map Prod.fst

/-! ## Manifest serialization -/

/-- A JSON string literal (the names in this development need no
escaping). -/
def jsonString (s : String) : String :=
  "\"" ++ s ++ "\""

/-- `serde_json::to_vec` of `json!({"timestamp": ..., "checksums": ...})`
as a string; the checksum map serializes in the model's key order (the
real `HashMap` iterates in an arbitrary order; no claim depends on it). -/
def manifestJson (timestamp : Nat) (checksums : List (String × String)) : String :=
  "\x7b" ++ jsonString "timestamp" ++ ":" ++ toString timestamp ++ "," ++
  jsonString "checksums" ++ ":\x7b" ++
  String.intercalate "," (checksums.map fun p => jsonString p.1 ++ ":" ++ jsonString p.2) ++
  "\x7d\x7d"

/-! ## The orchestrator: `main` -/

/-- A container entry as written into the archive: header block plus
payload bytes. -/
structure Entry where
  header : Header
  payload : List Nat
deriving DecidableEq, Repr

/-- The observable output-side effects of a run, in program order.
`encoderFinalize true` would be an explicit finalization call on the
compression encoder (`finish`/`try_finish`); `encoderFinalize false` is
a finalization performed implicitly by an encoder's `Drop`
implementation when the `tar::Builder` (which owns the boxed encoder,
which owns the file) goes out of scope — whether either ever happens
depends on the selected encoder type (see `dropEvents`).
`closeOutput` is the `File` handle closing on drop. -/
inductive Event where
  | createOutput (path : String)
  | writeEntry (name : String)
  | tarFinish
  | encoderFinalize (explicit : Bool)
  | closeOutput
deriving DecidableEq, Repr

/-- The parsed CLI arguments (`struct Cli`). -/
structure Cli where
  input : List RPath
  output : Option RPath
  compression : Comp

/-- Result of a successful run: the container entries in write order,
the final checksum map, and the sanitized output path. -/
structure RunOk where
  entries : List Entry
  hashes : List (String × String)
  outputPath : RPath
deriving DecidableEq, Repr

/-- The `for file_path in all_files` loop of `main`: digest the file,
re-open it, append it to the tar, record the digest under the entry
name.  Returns the write events and either an error or the accumulated
entries and hashes. -/
def mainLoop (fs : FSNode) :
    List RPath → List Entry → List (String × String) →
    List Event × Except ArcError (List Entry × List (String × String))
  | [], entries, hashes => ([], .ok (entries, hashes))
  | p :: rest, entries, hashes =>
      match calculateMd5 fs p with
      | none => ([], .error .ioFailure)
      | some digest =>
          match fileMeta fs p with
          | none => ([], .error .ioFailure)
          | some m =>
              let name := p.render
              let r := mainLoop fs rest (entries ++ [⟨appendFileHeader name m, m.content⟩])
                (hmInsert hashes name (bytesHex digest))
              (Event.writeEntry name :: r.1, r.2)

/-- Whether the `Write` implementation of the value `create_encoder`
boxes actually compresses what is written through it.  The Bzip2 arm
constructs `bzip2::read::BzEncoder`, a read-side encoder; it fits in
`Box<dyn Write>` only through the crate's pass-through `Write`
implementation, which forwards the written bytes to the underlying
`File` uncompressed.  The Gzip/Zlib arms are `flate2`'s write-side
encoders, which do compress. -/
def encoderWriteCompresses : Comp → Bool
  | .bzip2 => false
  | .gzip => true
  | .zlib => true

/-- Whether dropping the boxed encoder finalizes a compressed stream.
The read-side `bzip2::read::BzEncoder` holds no write-side compression
state, so its drop finalizes nothing; `flate2`'s write-side
`GzEncoder`/`ZlibEncoder` run `try_finish` in `Drop` (implicitly, with
errors discarded). -/
def encoderDropFinalizes : Comp → Bool
  | .bzip2 => false
  | .gzip => true
  | .zlib => true

/-- The events Rust's scope exit produces after the body of `main`: the
`tar::Builder` drop releases the boxed encoder — whose `Drop` finalizes
the compressed stream only for the write-side Gzip/Zlib encoders — and
then the `File` closes. -/
def dropEvents (comp : Comp) : List Event :=
  (if encoderDropFinalizes comp then [Event.encoderFinalize false] else []) ++
  [Event.closeOutput]

/-- `fn main -> Result<()>`, over the model filesystem `fs`, the parsed
CLI, the current working directory and the capture time `now`
(`current_time()`).  Returns the ordered effect trace and the outcome. -/
def runMain (fs : FSNode) (cli : Cli) (cwd : RPath) (now : Nat) :
    List Event × Except ArcError RunOk :=
  let output := cli.output.getD cwd
  let output := sanitizePath fs output cli.compression
  match resolvePaths fs cli.input with
  | .error e => ([], .error e)
  | .ok allFiles =>
      let r := mainLoop fs allFiles [] []
      match r.2 with
      | .error e =>
          (Event.createOutput output.render :: r.1 ++ dropEvents cli.compression,
           .error e)
      | .ok (entries, hashes) =>
          let data := strBytes (manifestJson now hashes)
          (Event.createOutput output.render :: r.1 ++
            [Event.writeEntry "meta.json", Event.tarFinish] ++ dropEvents cli.compression,
           .ok ⟨entries ++ [⟨createHeader "meta.json" data.length now, data⟩],
                hashes, output⟩)

/-! ## Specification-side definitions

Clean functional forms of the resolver and of the checksum map, written
from the spec's description (flat flattening in traversal order, one
digest recorded per entry name).  The theorems below relate them to the
accumulator-threading embeddings above. -/

mutual
/-- Spec form of the directory walk: the flat list of non-directory
entries under `node`, depth-first in listing order (spec §4.1). -/
def dfsNode (base : RPath) : FSNode → List RPath
  | .dir cs => dfsEntries base cs
  | _ => []

/-- Spec form of one directory listing: a non-directory child is an
entry, a directory child is only a traversal target. -/
def dfsEntries (base : RPath) : FSEntries → List RPath
  | .nil => []
  | .cons name child rest =>
      (match child with
       | .dir _ => dfsNode (base.push name) child
       | _ => [base.push name]) ++ dfsEntries base rest
end

/-- Spec form of resolving one input path: a regular file stands for
itself, a directory for its depth-first file list, anything else for
nothing. -/
def resolveTop (fs : FSNode) (p : RPath) : List RPath :=
  if isFile fs p then [p]
  else if isDir fs p then
    match lookupNode fs p.components with
    | some n => dfsNode p n
    | none => []
  else []

/-- The digest string the program records for path `p`, when `p` is a
regular file. -/
def digestOf (fs : FSNode) (p : RPath) : Option String :=
  (fileContent fs p).map fun c => bytesHex (md5 c)

/-- The checksum map accumulated over `ps` starting from `m`: one
`HashMap::insert` per resolved file under its rendered entry name. -/
def hashFold (fs : FSNode) (ps : List RPath) (m : List (String × String)) :
    List (String × String) :=
  ps.foldl
    (fun h p =>
      match fileContent fs p with
      | some c => hmInsert h p.render (bytesHex (md5 c))
      | none => h) m

/-- Default metadata (used only to read off fields that are known to be
present). -/
def fileMetaD (fs : FSNode) (p : RPath) : FileMeta :=
  (fileMeta fs p).getD ⟨[], 0, 0, 0, 0⟩

/-- The container entry `main`'s loop writes for the resolved file `p`. -/
def fileEntry (fs : FSNode) (p : RPath) : Entry :=
  ⟨appendFileHeader p.render (fileMetaD fs p), (fileMetaD fs p).content⟩

/-- The serialized manifest bytes of a run with capture time `now` and
checksum map `hashes`. -/
def manifestData (now : Nat) (hashes : List (String × String)) : List Nat :=
  strBytes (manifestJson now hashes)

/-- The `meta.json` container entry of such a run. -/
def manifestEntry (now : Nat) (hashes : List (String × String)) : Entry :=
  ⟨createHeader "meta.json" (manifestData now hashes).length now,
   manifestData now hashes⟩

/-- Extract the success value of a run (defaulting on error); lets
concrete witnesses name the `RunOk` of a concrete run. -/
def okOf : Except ArcError RunOk → RunOk
  | .ok r => r
  | .error _ => ⟨[], [], ⟨false, []⟩⟩

/-! ## Concrete fixtures for witnesses and counterexamples -/

/-- A filesystem with one small file (non-default metadata), one nested
directory tree and one special file. -/
def fsW : FSNode :=
  .dir (.cons "a.txt" (.file ⟨strBytes "hello", 0o600, 500, 500, 42⟩)
    (.cons "d" (.dir (.cons "x" (.file ⟨[1, 2], 0o644, 0, 0, 7⟩)
      (.cons "sub" (.dir (.cons "y" (.file ⟨[], 0o644, 0, 0, 8⟩) .nil)) .nil)))
    (.cons "s" .special .nil)))

/-- A filesystem in which `report.csv` is a directory. -/
def fsDir : FSNode :=
  .dir (.cons "report.csv" (.dir .nil) .nil)

/-- The path `a.txt`. -/
def pA : RPath := ⟨false, ["a.txt"]⟩

/-- The path `d`. -/
def pD : RPath := ⟨false, ["d"]⟩

/-- The path `s` (a special file in `fsW`). -/
def pS : RPath := ⟨false, ["s"]⟩

/-- An empty working directory path. -/
def cwdW : RPath := ⟨false, []⟩

/-- A path that does not exist in `fsW`. -/
def pZ : RPath := ⟨false, ["zzz"]⟩

/-! ## Lemmas: digest engine -/

/-- The chunked read loop consumes exactly the file's bytes: folding
4 MiB chunks into the context appends the whole stream. -/
theorem md5ReadLoop_eq : ∀ (fuel : Nat) (ctx c : List Nat), c.length ≤ fuel →
    md5ReadLoop fuel ctx c = ctx ++ c := by
  intro fuel
  induction fuel with
  | zero =>
      intro ctx c h
      cases c with
      | nil => simp [md5ReadLoop]
      | cons b rest => simp at h
  | succ n ih =>
      intro ctx c h
      cases c with
      | nil => simp [md5ReadLoop]
      | cons b rest =>
          have hlen : rest.length + 1 ≤ n + 1 := by simpa using h
          rw [show md5ReadLoop (n + 1) ctx (b :: rest)
              = md5ReadLoop n (md5Consume ctx ((b :: rest).take BUF_SIZE))
                  ((b :: rest).drop BUF_SIZE) from rfl]
          rw [ih _ _ (by
            simp only [List.length_drop, List.length_cons, BUF_SIZE]
            omega)]
          simp [md5Consume, List.append_assoc]

/-- `calculate_md5` returns the MD5 of the file's full byte stream,
exactly when the path is a regular file. -/
theorem calculateMd5_eq (fs : FSNode) (p : RPath) :
    calculateMd5 fs p = (fileContent fs p).map md5 := by
  unfold calculateMd5 fileContent fileMeta
  cases lookupNode fs p.components with
  | none => rfl
  | some n =>
      cases n <;>
        simp [md5Compute, md5ContextNew, md5ReadLoop_eq _ _ _ (Nat.le_refl _)]

/-! ## Lemmas: the checksum map -/

/-- Looking up the just-inserted key. -/
theorem hmLookup_insert_self (m : List (String × String)) (k v : String) :
    hmLookup (hmInsert m k v) k = some v := by
  have hnone : (m.filter fun p => p.1 != k).find? (fun p => p.1 == k) = none := by
    rw [List.find?_eq_none]
    intro x hx
    rcases List.mem_filter.1 hx with ⟨-, hx2⟩
    simpa using (by simpa using hx2 : x.1 ≠ k)
  unfold hmLookup hmInsert
  rw [List.find?_append, hnone]
  simp

/-- Filtering a key out does not change lookups of other keys. -/
theorem find?_filter_ne (m : List (String × String)) (k k' : String) (h : k' ≠ k) :
    (m.filter fun p => p.1 != k).find? (fun p => p.1 == k')
      = m.find? (fun p => p.1 == k') := by
  induction m with
  | nil => rfl
  | cons a m ih =>
      by_cases hak : a.1 = k
      · rw [List.filter_cons_of_neg (by simp [hak]),
          List.find?_cons_of_neg _ (by simp [hak, Ne.symm h])]
        exact ih
      · rw [List.filter_cons_of_pos (by simp [hak])]
        by_cases hak' : a.1 = k'
        · rw [List.find?_cons_of_pos _ (by simp [hak']),
            List.find?_cons_of_pos _ (by simp [hak'])]
        · rw [List.find?_cons_of_neg _ (by simp [hak']),
            List.find?_cons_of_neg _ (by simp [hak'])]
          exact ih

/-- Inserting one key leaves lookups of other keys unchanged. -/
theorem hmLookup_insert_ne (m : List (String × String)) (k v k' : String)
    (h : k' ≠ k) : hmLookup (hmInsert m k v) k' = hmLookup m k' := by
  unfold hmLookup hmInsert
  rw [List.find?_append, find?_filter_ne m k k' h]
  have h2 : ([(k, v)].find? fun p => p.1 == k') = none := by
    simp [Ne.symm h]
  rw [h2, Option.or_none]

/-- The keys of the map after an insert. -/
theorem hmKeys_insert_mem (m : List (String × String)) (k v k' : String) :
    k' ∈ hmKeys (hmInsert m k v) ↔ k' = k ∨ k' ∈ hmKeys m := by
  unfold hmKeys hmInsert
  simp only [List.map_append, List.mem_append, List.mem_map, List.mem_filter,
    List.map_cons, List.map_nil, List.mem_singleton]
  constructor
  · rintro (⟨a, ⟨ha, -⟩, rfl⟩ | h)
    · exact Or.inr ⟨a, ha, rfl⟩
    · exact Or.inl h
  · rintro (rfl | ⟨a, ha, rfl⟩)
    · exact Or.inr rfl
    · by_cases hak : a.1 = k
      · exact Or.inr hak
      · exact Or.inl ⟨a, ⟨ha, by simp [hak]⟩, rfl⟩

/-- Inserting preserves distinctness of the keys. -/
theorem hmKeys_insert_nodup (m : List (String × String)) (k v : String)
    (h : (hmKeys m).Nodup) : (hmKeys (hmInsert m k v)).Nodup := by
  unfold hmKeys hmInsert at *
  rw [List.map_append]
  have hsub : ((m.filter fun p => p.1 != k).map Prod.fst).Sublist (m.map Prod.fst) :=
    (List.filter_sublist _).map _
  refine List.Nodup.append (h.sublist hsub) (List.nodup_singleton _) ?_
  intro x hx hk
  rcases List.mem_map.1 hx with ⟨a, ha, rfl⟩
  rcases List.mem_filter.1 ha with ⟨-, h2⟩
  simp only [List.map_cons, List.map_nil, List.mem_singleton] at hk
  have h3 : a.1 ≠ k := by simpa using h2
  exact h3 hk

/-! ## Lemmas: the resolver -/

mutual
/-- `read_dir` appends exactly the depth-first file list of the node. -/
theorem readDirNode_eq : ∀ (base : RPath) (n : FSNode) (entries : List RPath),
    readDirNode base n entries = entries ++ dfsNode base n
  | base, .file m, entries => by simp [readDirNode, dfsNode]
  | base, .special, entries => by simp [readDirNode, dfsNode]
  | base, .dir cs, entries => by
      rw [show readDirNode base (.dir cs) entries = readDirEntries base cs entries from rfl,
        readDirEntries_eq base cs entries]
      rfl

/-- The `read_dir` loop body appends the depth-first file list of the
listing. -/
theorem readDirEntries_eq : ∀ (base : RPath) (cs : FSEntries) (entries : List RPath),
    readDirEntries base cs entries = entries ++ dfsEntries base cs
  | base, .nil, entries => by simp [readDirEntries, dfsEntries]
  | base, .cons name child rest, entries => by
      cases child with
      | dir ccs =>
          rw [show readDirEntries base (.cons name (.dir ccs) rest) entries
              = readDirEntries base rest (readDirNode (base.push name) (.dir ccs) entries)
              from rfl]
          rw [readDirEntries_eq base rest, readDirNode_eq (base.push name) (.dir ccs) entries]
          simp [dfsEntries]
      | file m =>
          rw [show readDirEntries base (.cons name (.file m) rest) entries
              = readDirEntries base rest (entries ++ [base.push name]) from rfl]
          rw [readDirEntries_eq base rest]
          simp [dfsEntries]
      | special =>
          rw [show readDirEntries base (.cons name .special rest) entries
              = readDirEntries base rest (entries ++ [base.push name]) from rfl]
          rw [readDirEntries_eq base rest]
          simp [dfsEntries]
end

/-- A missing input path makes the resolver loop bail with the
PathNotFound error. -/
theorem resolvePathsLoop_error (fs : FSNode) :
    ∀ (ps : List RPath) (acc : List RPath),
      (∃ p ∈ ps, pathExists fs p = false) →
      ∃ msg, resolvePathsLoop fs ps acc = .error (.pathNotFound msg) := by
  intro ps
  induction ps with
  | nil => intro acc h; rcases h with ⟨p, hp, -⟩; cases hp
  | cons q rest ih =>
      intro acc h
      by_cases hq : pathExists fs q = false
      · exact ⟨q.render, by simp [resolvePathsLoop, hq]⟩
      · have hq' : pathExists fs q = true := by
          cases hqv : pathExists fs q
          · exact absurd hqv hq
          · rfl
        rcases h with ⟨p, hp, hpe⟩
        rcases List.mem_cons.1 hp with rfl | hp'
        · exact absurd hpe hq
        · by_cases hf : isFile fs q = true
          · rcases ih (acc ++ [q]) ⟨p, hp', hpe⟩ with ⟨msg, hmsg⟩
            exact ⟨msg, by simpa [resolvePathsLoop, hq', hf] using hmsg⟩
          · by_cases hd : isDir fs q = true
            · rcases ih (match lookupNode fs q.components with
                | some n => readDirNode q n acc
                | none => acc) ⟨p, hp', hpe⟩ with ⟨msg, hmsg⟩
              exact ⟨msg, by simpa [resolvePathsLoop, hq', hf, hd] using hmsg⟩
            · rcases ih acc ⟨p, hp', hpe⟩ with ⟨msg, hmsg⟩
              exact ⟨msg, by simpa [resolvePathsLoop, hq', hf, hd] using hmsg⟩

/-- When every input path exists, the resolver loop succeeds and its
result is the accumulator followed by the flat traversal of the inputs. -/
theorem resolvePathsLoop_ok (fs : FSNode) :
    ∀ (ps : List RPath) (acc : List RPath),
      (∀ p ∈ ps, pathExists fs p = true) →
      resolvePathsLoop fs ps acc = .ok (acc ++ ps.flatMap (resolveTop fs)) := by
  intro ps
  induction ps with
  | nil => intro acc _; simp [resolvePathsLoop]
  | cons q rest ih =>
      intro acc h
      have hq : pathExists fs q = true := h q (List.mem_cons_self q rest)
      have hrest : ∀ p ∈ rest, pathExists fs p = true :=
        fun p hp => h p (List.mem_cons_of_mem q hp)
      by_cases hf : isFile fs q = true
      · rw [show resolvePathsLoop fs (q :: rest) acc
            = resolvePathsLoop fs rest (acc ++ [q]) by simp [resolvePathsLoop, hq, hf]]
        rw [ih _ hrest]
        simp [resolveTop, hf]
      · by_cases hd : isDir fs q = true
        · have hnode : ∃ n, lookupNode fs q.components = some n := by
            unfold isDir at hd
            cases hlk : lookupNode fs q.components with
            | none => rw [hlk] at hd; cases hd
            | some n => exact ⟨n, rfl⟩
          rcases hnode with ⟨n, hn⟩
          rw [show resolvePathsLoop fs (q :: rest) acc
              = resolvePathsLoop fs rest (readDirNode q n acc) by
            simp [resolvePathsLoop, hq, hf, hd, hn]]
          rw [ih _ hrest, readDirNode_eq]
          simp [resolveTop, hf, hd, hn]
        · rw [show resolvePathsLoop fs (q :: rest) acc
              = resolvePathsLoop fs rest acc by simp [resolvePathsLoop, hq, hf, hd]]
          rw [ih _ hrest]
          simp [resolveTop, hf, hd]

/-! ## Lemmas: the main loop -/

/-- The file content is the content field of the file metadata. -/
theorem fileContent_eq_meta (fs : FSNode) (p : RPath) :
    fileContent fs p = (fileMeta fs p).map FileMeta.content := by
  unfold fileContent fileMeta
  cases lookupNode fs p.components with
  | none => rfl
  | some n => cases n <;> rfl

/-- One fold step over a regular file. -/
theorem hashFold_cons_some (fs : FSNode) (q : RPath) (rest : List RPath)
    (m : List (String × String)) (c : List Nat) (hc : fileContent fs q = some c) :
    hashFold fs (q :: rest) m
      = hashFold fs rest (hmInsert m q.render (bytesHex (md5 c))) := by
  unfold hashFold
  simp [hc]

/-- One fold step over a non-file. -/
theorem hashFold_cons_none (fs : FSNode) (q : RPath) (rest : List RPath)
    (m : List (String × String)) (hc : fileContent fs q = none) :
    hashFold fs (q :: rest) m = hashFold fs rest m := by
  unfold hashFold
  simp [hc]

/-- Success characterization of the `for file_path in all_files` loop:
the entries are the incoming ones followed by one `append_file` entry
per path in order; the hashes are one insert per path; every path was a
regular file; the write events are one per path in order. -/
theorem mainLoop_ok (fs : FSNode) :
    ∀ (ps : List RPath) (entries : List Entry) (hashes : List (String × String))
      (out : List Entry × List (String × String)),
      (mainLoop fs ps entries hashes).2 = .ok out →
      out.1 = entries ++ ps.map (fileEntry fs) ∧
      out.2 = hashFold fs ps hashes ∧
      (∀ p ∈ ps, (fileMeta fs p).isSome = true) ∧
      (mainLoop fs ps entries hashes).1 = ps.map fun p => Event.writeEntry p.render := by
  intro ps
  induction ps with
  | nil =>
      intro entries hashes out h
      simp only [mainLoop] at h
      cases Except.ok.inj h
      exact ⟨by simp, by simp [hashFold], by simp, by simp [mainLoop]⟩
  | cons p rest ih =>
      intro entries hashes out h
      cases hm : fileMeta fs p with
      | none =>
          rw [show mainLoop fs (p :: rest) entries hashes = ([], .error .ioFailure) by
            simp [mainLoop, calculateMd5, hm]] at h
          cases h
      | some m =>
          have hcalc : calculateMd5 fs p = some (md5 m.content) := by
            rw [calculateMd5_eq, fileContent_eq_meta, hm]
            rfl
          have hstep : mainLoop fs (p :: rest) entries hashes
              = (Event.writeEntry p.render ::
                  (mainLoop fs rest (entries ++ [⟨appendFileHeader p.render m, m.content⟩])
                    (hmInsert hashes p.render (bytesHex (md5 m.content)))).1,
                 (mainLoop fs rest (entries ++ [⟨appendFileHeader p.render m, m.content⟩])
                    (hmInsert hashes p.render (bytesHex (md5 m.content)))).2) := by
            simp [mainLoop, hcalc, hm]
          rw [hstep] at h ⊢
          simp only at h
          rcases ih _ _ _ h with ⟨h1, h2, h3, h4⟩
          refine ⟨?_, ?_, ?_, ?_⟩
          · rw [h1]
            simp [fileEntry, fileMetaD, hm]
          · rw [h2, hashFold_cons_some fs p rest hashes m.content
              (by rw [fileContent_eq_meta, hm]; rfl)]
          · intro q hq
            rcases List.mem_cons.1 hq with rfl | hq'
            · simp [hm]
            · exact h3 q hq'
          · rw [List.map_cons, ← h4]

/-! ## Lemmas: the accumulated checksum map -/

/-- A binding survives the fold when every later file with the same
entry name would re-insert the same digest. -/
theorem hashFold_lookup_preserve (fs : FSNode) :
    ∀ (ps : List RPath) (m : List (String × String)) (k v : String),
      hmLookup m k = some v →
      (∀ q ∈ ps, q.render = k → digestOf fs q = some v) →
      hmLookup (hashFold fs ps m) k = some v := by
  intro ps
  induction ps with
  | nil => intro m k v hm _; simpa [hashFold] using hm
  | cons q rest ih =>
      intro m k v hm hq
      cases hc : fileContent fs q with
      | none =>
          rw [hashFold_cons_none fs q rest m hc]
          exact ih _ _ _ hm fun r hr => hq r (List.mem_cons_of_mem _ hr)
      | some c =>
          rw [hashFold_cons_some fs q rest m c hc]
          by_cases hqr : q.render = k
          · have hd : digestOf fs q = some v := hq q (List.mem_cons_self q rest) hqr
            have hv : bytesHex (md5 c) = v := by
              rw [digestOf, hc] at hd
              simpa using hd
            refine ih _ _ _ ?_ fun r hr => hq r (List.mem_cons_of_mem _ hr)
            rw [← hqr, hv]
            exact hmLookup_insert_self m q.render v
          · refine ih _ _ _ ?_ fun r hr => hq r (List.mem_cons_of_mem _ hr)
            rw [hmLookup_insert_ne m q.render (bytesHex (md5 c)) k
              fun hkq => hqr hkq.symm]
            exact hm

/-- The digest recorded under the entry name of `p`: provided every
resolved file sharing `p`'s entry name has the same digest, the final
map binds `p.render` to `p`'s digest. -/
theorem hashFold_lookup_mem (fs : FSNode) :
    ∀ (ps : List RPath) (m : List (String × String)) (p : RPath) (v : String),
      p ∈ ps →
      digestOf fs p = some v →
      (∀ q ∈ ps, q.render = p.render → digestOf fs q = digestOf fs p) →
      hmLookup (hashFold fs ps m) p.render = some v := by
  intro ps
  induction ps with
  | nil => intro m p v hp; cases hp
  | cons q rest ih =>
      intro m p v hp hv hinj
      by_cases hpr : p ∈ rest
      · cases hc : fileContent fs q with
        | none =>
            rw [hashFold_cons_none fs q rest m hc]
            exact ih _ p v hpr hv fun r hr => hinj r (List.mem_cons_of_mem _ hr)
        | some c =>
            rw [hashFold_cons_some fs q rest m c hc]
            exact ih _ p v hpr hv fun r hr => hinj r (List.mem_cons_of_mem _ hr)
      · have hpq : p = q := by
          rcases List.mem_cons.1 hp with h | h
          · exact h
          · exact absurd h hpr
        subst hpq
        have hc : ∃ c, fileContent fs p = some c ∧ bytesHex (md5 c) = v := by
          rw [digestOf] at hv
          cases hcc : fileContent fs p with
          | none => rw [hcc] at hv; cases hv
          | some c => rw [hcc] at hv; exact ⟨c, rfl, by simpa using hv⟩
        rcases hc with ⟨c, hc1, hc2⟩
        rw [hashFold_cons_some fs p rest m c hc1]
        refine hashFold_lookup_preserve fs rest _ p.render v ?_ ?_
        · rw [hc2]
          exact hmLookup_insert_self m p.render v
        · intro r hr hrp
          rw [hinj r (List.mem_cons_of_mem _ hr) hrp, hv]

/-- Key membership after the fold. -/
theorem hashFold_keys_mem (fs : FSNode) :
    ∀ (ps : List RPath) (m : List (String × String)) (k : String),
      (∀ p ∈ ps, (fileContent fs p).isSome = true) →
      (k ∈ hmKeys (hashFold fs ps m) ↔ k ∈ hmKeys m ∨ ∃ p ∈ ps, p.render = k) := by
  intro ps
  induction ps with
  | nil => intro m k _; simp [hashFold]
  | cons q rest ih =>
      intro m k hall
      have hq : (fileContent fs q).isSome = true := hall q (List.mem_cons_self q rest)
      cases hc : fileContent fs q with
      | none => rw [hc] at hq; cases hq
      | some c =>
          rw [hashFold_cons_some fs q rest m c hc]
          rw [ih _ k fun p hp => hall p (List.mem_cons_of_mem _ hp)]
          rw [hmKeys_insert_mem]
          constructor
          · rintro ((rfl | hk) | ⟨p, hp, rfl⟩)
            · exact Or.inr ⟨q, List.mem_cons_self q rest, rfl⟩
            · exact Or.inl hk
            · exact Or.inr ⟨p, List.mem_cons_of_mem _ hp, rfl⟩
          · rintro (hk | ⟨p, hp, rfl⟩)
            · exact Or.inl (Or.inr hk)
            · rcases List.mem_cons.1 hp with rfl | hp'
              · exact Or.inl (Or.inl rfl)
              · exact Or.inr ⟨p, hp', rfl⟩

/-- The fold keeps the keys distinct. -/
theorem hashFold_keys_nodup (fs : FSNode) :
    ∀ (ps : List RPath) (m : List (String × String)),
      (hmKeys m).Nodup → (hmKeys (hashFold fs ps m)).Nodup := by
  intro ps
  induction ps with
  | nil => intro m hm; simpa [hashFold] using hm
  | cons q rest ih =>
      intro m hm
      cases hc : fileContent fs q with
      | none =>
          rw [hashFold_cons_none fs q rest m hc]
          exact ih _ hm
      | some c =>
          rw [hashFold_cons_some fs q rest m c hc]
          exact ih _ (hmKeys_insert_nodup m q.render (bytesHex (md5 c)) hm)

/-! ## Lemmas: the whole run -/

/-- Success characterization of `main`: the resolver succeeded, every
resolved path was a regular file, the checksum map is the fold of
inserts, the entries are the file entries in resolver order followed by
the manifest entry, and the trace is create, one write per file, the
manifest write, the container terminator, then the drop-time
finalization and close. -/
theorem runMain_ok (fs : FSNode) (cli : Cli) (cwd : RPath) (now : Nat) (res : RunOk)
    (h : (runMain fs cli cwd now).2 = .ok res) :
    ∃ files, resolvePaths fs cli.input = .ok files ∧
      (∀ p ∈ files, (fileMeta fs p).isSome = true) ∧
      res.hashes = hashFold fs files [] ∧
      res.entries = files.map (fileEntry fs) ++ [manifestEntry now res.hashes] ∧
      res.outputPath = sanitizePath fs (cli.output.getD cwd) cli.compression ∧
      (runMain fs cli cwd now).1 =
        Event.createOutput (sanitizePath fs (cli.output.getD cwd) cli.compression).render ::
          (files.map fun p => Event.writeEntry p.render) ++
          [Event.writeEntry "meta.json", Event.tarFinish] ++ dropEvents cli.compression := by
  cases hres : resolvePaths fs cli.input with
  | error e =>
      rw [show (runMain fs cli cwd now).2 = .error e by simp [runMain, hres]] at h
      cases h
  | ok files =>
      refine ⟨files, rfl, ?_⟩
      cases hml : (mainLoop fs files [] []).2 with
      | error e =>
          rw [show (runMain fs cli cwd now).2 = .error e by simp [runMain, hres, hml]] at h
          cases h
      | ok out =>
          obtain ⟨entries, hashes⟩ := out
          rcases mainLoop_ok fs files [] [] (entries, hashes) hml with ⟨h1, h2, h3, h4⟩
          simp only at h1 h2
          have hrm : (runMain fs cli cwd now).2
              = .ok ⟨entries ++ [manifestEntry now hashes], hashes,
                  sanitizePath fs (cli.output.getD cwd) cli.compression⟩ := by
            simp [runMain, hres, hml, manifestEntry, manifestData]
          rw [hrm] at h
          cases Except.ok.inj h
          refine ⟨h3, by simpa using h2, ?_, rfl, ?_⟩
          · simp only [h1, h2, List.nil_append]
          · rw [show (runMain fs cli cwd now).1
                = Event.createOutput
                    (sanitizePath fs (cli.output.getD cwd) cli.compression).render ::
                    (mainLoop fs files [] []).1 ++
                    [Event.writeEntry "meta.json", Event.tarFinish] ++
                    dropEvents cli.compression by
              simp [runMain, hres, hml]]
            rw [h4]

/-- Failure of the resolver aborts the run before any output-side
effect: the trace is empty. -/
theorem runMain_resolve_error (fs : FSNode) (cli : Cli) (cwd : RPath) (now : Nat)
    (e : ArcError) (hres : resolvePaths fs cli.input = .error e) :
    runMain fs cli cwd now = ([], .error e) := by
  simp [runMain, hres]

/-! ## Lemmas: string splitting and hex rendering -/

/-- A successful first-occurrence split reassembles the input. -/
theorem splitOnce_eq_append (c : Char) :
    ∀ (l a b : List Char), splitOnceChars c l = some (a, b) → l = a ++ c :: b := by
  intro l
  induction l with
  | nil => intro a b h; cases h
  | cons x rest ih =>
      intro a b h
      by_cases hx : x = c
      · simp only [splitOnceChars, if_pos hx, Option.some.injEq, Prod.mk.injEq] at h
        obtain ⟨rfl, rfl⟩ := h
        simp [hx]
      · simp only [splitOnceChars, if_neg hx] at h
        cases hr : splitOnceChars c rest with
        | none => simp [hr] at h
        | some pr =>
            obtain ⟨pre, post⟩ := pr
            simp only [hr, Option.some.injEq, Prod.mk.injEq] at h
            obtain ⟨rfl, rfl⟩ := h
            rw [ih pre post hr]
            simp

/-- The prefix of a first-occurrence split does not contain the
separator. -/
theorem splitOnce_pre_not_mem (c : Char) :
    ∀ (l a b : List Char), splitOnceChars c l = some (a, b) → c ∉ a := by
  intro l
  induction l with
  | nil => intro a b h; cases h
  | cons x rest ih =>
      intro a b h
      by_cases hx : x = c
      · simp only [splitOnceChars, if_pos hx, Option.some.injEq, Prod.mk.injEq] at h
        obtain ⟨rfl, rfl⟩ := h
        simp
      · simp only [splitOnceChars, if_neg hx] at h
        cases hr : splitOnceChars c rest with
        | none => simp [hr] at h
        | some pr =>
            obtain ⟨pre, post⟩ := pr
            simp only [hr, Option.some.injEq, Prod.mk.injEq] at h
            obtain ⟨rfl, rfl⟩ := h
            intro hmem
            rcases List.mem_cons.1 hmem with rfl | hmem'
            · exact hx rfl
            · exact ih pre post hr hmem'

/-- When the separator does not occur, the split fails. -/
theorem splitOnce_of_not_mem (c : Char) :
    ∀ (l : List Char), c ∉ l → splitOnceChars c l = none := by
  intro l
  induction l with
  | nil => intro _; rfl
  | cons x rest ih =>
      intro h
      have hx : ¬x = c := fun hc => h (hc ▸ List.mem_cons_self x rest)
      have hr : c ∉ rest := fun hc => h (List.mem_cons_of_mem x hc)
      simp [splitOnceChars, hx, ih hr]

/-- A list that contains the separator splits, and the suffix is at
least as long as the part after one known occurrence. -/
theorem splitOnce_suffix (c : Char) :
    ∀ (X Y : List Char), ∃ a b,
      splitOnceChars c (X ++ c :: Y) = some (a, b) ∧ Y.length ≤ b.length := by
  intro X Y
  induction X with
  | nil => exact ⟨[], Y, by simp [splitOnceChars], Nat.le_refl _⟩
  | cons x X' ih =>
      by_cases hx : x = c
      · refine ⟨[], X' ++ c :: Y, by simp [splitOnceChars, hx], ?_⟩
        simp
        omega
      · rcases ih with ⟨a, b, hab, hlen⟩
        exact ⟨x :: a, b, by simp [splitOnceChars, hx, hab], hlen⟩

/-- Every hex digit of a rendered digest is a lowercase hex character. -/
theorem bytesHex_lowercase (bs : List Nat) :
    ∀ c ∈ (bytesHex bs).data, c ∈ "0123456789abcdef".data := by
  have hdig : ∀ n, n < 16 → hexDigit n ∈ "0123456789abcdef".data := by decide
  intro c hc
  simp only [bytesHex] at hc
  rcases List.mem_flatMap.1 hc with ⟨b, -, hb⟩
  rcases List.mem_cons.1 hb with rfl | hb'
  · exact hdig _ (Nat.mod_lt _ (by omega))
  · rcases List.mem_cons.1 hb' with rfl | hb''
    · exact hdig _ (Nat.mod_lt _ (by omega))
    · cases hb''

/-- The stored checksum field does not feed into the header checksum
computation (the checksum field is read as spaces), so `set_cksum`
establishes a valid checksum. -/
theorem tarHeaderChecksum_setCksum (h : Header) :
    tarHeaderChecksum (setCksum h) = tarHeaderChecksum h := by
  cases h
  rfl

/-- `set_cksum` leaves the header with a checksum field that equals the
format's checksum of the header itself. -/
theorem setCksum_valid (h : Header) :
    (setCksum h).cksum = tarHeaderChecksum (setCksum h) := by
  rw [tarHeaderChecksum_setCksum]
  rfl

/-! ## Claims -/

/-- C9: for every ordered list of input paths, resolution fails with
NotFound if any path does not exist; otherwise it succeeds and returns
the flat ordered traversal: each regular-file input stands for itself,
each directory input is walked depth-first with every non-directory
entry at any depth appended in listing order and nested directories
used only as traversal targets. -/
theorem resolve_paths_characterization (fs : FSNode) (inputs : List RPath) :
    ((∃ p ∈ inputs, pathExists fs p = false) →
      ∃ msg, resolvePaths fs inputs = .error (.pathNotFound msg)) ∧
    ((∀ p ∈ inputs, pathExists fs p = true) →
      resolvePaths fs inputs = .ok (inputs.flatMap (resolveTop fs))) ∧
    (∀ l, resolvePaths fs inputs = .ok l → l = inputs.flatMap (resolveTop fs)) := by
  refine ⟨?_, ?_, ?_⟩
  · intro h
    exact resolvePathsLoop_error fs inputs [] h
  · intro h
    simpa using resolvePathsLoop_ok fs inputs [] h
  · intro l hl
    by_cases hall : ∀ p ∈ inputs, pathExists fs p = true
    · have hok := resolvePathsLoop_ok fs inputs [] hall
      rw [show resolvePaths fs inputs = resolvePathsLoop fs inputs [] from rfl, hok] at hl
      simpa using (Except.ok.inj hl).symm
    · have hex : ∃ p ∈ inputs, pathExists fs p = false := by
        push_neg at hall
        rcases hall with ⟨p, hp, hpe⟩
        exact ⟨p, hp, by simpa using hpe⟩
      rcases resolvePathsLoop_error fs inputs [] hex with ⟨msg, hmsg⟩
      rw [show resolvePaths fs inputs = resolvePathsLoop fs inputs [] from rfl, hmsg] at hl
      cases hl

theorem resolve_paths_characterization_witness :
    resolvePaths fsW [pA, pD, pS]
      = .ok [pA, ⟨false, ["d", "x"]⟩, ⟨false, ["d", "sub", "y"]⟩] := by
  rw [(resolve_paths_characterization fsW [pA, pD, pS]).2.1 (by decide)]
  exact congrArg Except.ok (by decide)

/-- C10: a top-level input that exists but is neither a regular file nor
a directory is silently omitted: resolution succeeds without an error
and the special path contributes nothing and does not appear in the
result (stated for input sets whose other members are non-directories,
so that no directory walk could re-emit the path). -/
theorem special_input_omitted (fs : FSNode) (inputs : List RPath) (p : RPath)
    (hmem : p ∈ inputs) (hex : pathExists fs p = true)
    (hnf : isFile fs p = false) (hnd : isDir fs p = false)
    (hall : ∀ q ∈ inputs, pathExists fs q = true)
    (hnod : ∀ q ∈ inputs, isDir fs q = false) :
    ∃ l, resolvePaths fs inputs = .ok l ∧ p ∉ l ∧ resolveTop fs p = [] := by
  refine ⟨inputs.flatMap (resolveTop fs), by simpa using resolvePathsLoop_ok fs inputs [] hall,
    ?_, by simp [resolveTop, hnf, hnd]⟩
  intro hpl
  rcases List.mem_flatMap.1 hpl with ⟨q, hq, hpq⟩
  by_cases hqf : isFile fs q = true
  · rw [show resolveTop fs q = [q] by simp [resolveTop, hqf]] at hpq
    rcases List.mem_singleton.1 hpq with rfl
    rw [hqf] at hnf
    cases hnf
  · rw [show resolveTop fs q = [] by
      simp [resolveTop, hqf, hnod q hq]] at hpq
    cases hpq

theorem special_input_omitted_witness :
    ∃ l, resolvePaths fsW [pA, pS] = .ok l ∧ pS ∉ l ∧ resolveTop fsW pS = [] :=
  special_input_omitted fsW [pA, pS] pS (by decide) (by decide) (by decide)
    (by decide) (by decide) (by decide)

/-- C3: when some input path does not exist, the run aborts with the
PathNotFound error and its effect trace contains no output-file
creation (resolution runs strictly before `File::create`). -/
theorem pathnotfound_before_create (fs : FSNode) (cli : Cli) (cwd : RPath) (now : Nat)
    (p : RPath) (hp : p ∈ cli.input) (hmiss : pathExists fs p = false) :
    (∃ msg, (runMain fs cli cwd now).2 = .error (.pathNotFound msg)) ∧
    (∀ s, Event.createOutput s ∉ (runMain fs cli cwd now).1) := by
  rcases resolvePathsLoop_error fs cli.input [] ⟨p, hp, hmiss⟩ with ⟨msg, hmsg⟩
  have hrun := runMain_resolve_error fs cli cwd now (.pathNotFound msg) hmsg
  constructor
  · exact ⟨msg, by rw [hrun]⟩
  · intro s hs
    rw [hrun] at hs
    cases hs

theorem pathnotfound_before_create_witness :
    (∃ msg, (runMain fsW ⟨[pZ, pA], none, .gzip⟩ cwdW 5).2
      = .error (.pathNotFound msg)) ∧
    (∀ s, Event.createOutput s ∉ (runMain fsW ⟨[pZ, pA], none, .gzip⟩ cwdW 5).1) :=
  pathnotfound_before_create fsW ⟨[pZ, pA], none, .gzip⟩ cwdW 5 pZ (by decide) (by decide)

/-- C8 (counterexample): output-path resolution is not independent of
filesystem state: the same path string and compression kind give
different results depending on whether the path is currently a
directory on disk (`sanitize_path` probes `is_dir`). -/
theorem sanitize_not_fs_independent :
    sanitizePath fsDir ⟨false, ["report.csv"]⟩ .bzip2
      ≠ sanitizePath (.dir .nil) ⟨false, ["report.csv"]⟩ .bzip2 := by
  decide

/-- C8 (amended): output-path resolution is deterministic given the
path string, the compression kind and the single filesystem fact it
probes — whether the path is currently a directory; it depends on
nothing else. -/
theorem sanitize_depends_only_on_isdir (fs1 fs2 : FSNode) (p : RPath) (comp : Comp)
    (h : isDir fs1 p = isDir fs2 p) :
    sanitizePath fs1 p comp = sanitizePath fs2 p comp := by
  unfold sanitizePath
  rw [h]

theorem sanitize_depends_only_on_isdir_witness :
    sanitizePath fsW ⟨false, ["report.csv"]⟩ .zlib
      = sanitizePath (.dir .nil) ⟨false, ["report.csv"]⟩ .zlib :=
  sanitize_depends_only_on_isdir fsW (.dir .nil) ⟨false, ["report.csv"]⟩ .zlib (by decide)

/-- C2: on every successful run the container entries are exactly the
resolved file entries in resolver order followed by the manifest entry
named `meta.json` as the single last entry, for any input count
(including zero files, when the archive holds only the manifest). -/
theorem entries_order_manifest_last (fs : FSNode) (cli : Cli) (cwd : RPath) (now : Nat)
    (res : RunOk) (h : (runMain fs cli cwd now).2 = .ok res) :
    ∃ files, resolvePaths fs cli.input = .ok files ∧
      res.entries = files.map (fileEntry fs) ++ [manifestEntry now res.hashes] ∧
      (res.entries.map fun e => e.header.name) = files.map RPath.render ++ ["meta.json"] ∧
      res.entries.getLast? = some (manifestEntry now res.hashes) := by
  rcases runMain_ok fs cli cwd now res h with ⟨files, hres, hall, hh, he, -, -⟩
  refine ⟨files, hres, he, ?_, ?_⟩
  · rw [he, List.map_append, List.map_map]
    rfl
  · rw [he, List.getLast?_concat]

theorem entries_order_manifest_last_witness :
    ∃ files, resolvePaths fsW [] = .ok files ∧
      (okOf (runMain fsW ⟨[], none, .bzip2⟩ cwdW 11).2).entries
        = files.map (fileEntry fsW) ++
          [manifestEntry 11 (okOf (runMain fsW ⟨[], none, .bzip2⟩ cwdW 11).2).hashes] ∧
      ((okOf (runMain fsW ⟨[], none, .bzip2⟩ cwdW 11).2).entries.map
          fun e => e.header.name) = files.map RPath.render ++ ["meta.json"] ∧
      (okOf (runMain fsW ⟨[], none, .bzip2⟩ cwdW 11).2).entries.getLast?
        = some (manifestEntry 11 (okOf (runMain fsW ⟨[], none, .bzip2⟩ cwdW 11).2).hashes) :=
  entries_order_manifest_last fsW ⟨[], none, .bzip2⟩ cwdW 11
    (okOf (runMain fsW ⟨[], none, .bzip2⟩ cwdW 11).2) (by rfl)

/-- C1: on every successful run, for every resolved file whose entry
name is shared only by files with the same content, the manifest's
checksum record binds that entry name to the MD5 digest of the file's
on-disk bytes — the digest the 4 MiB chunked read loop computes — and
the recorded string is lowercase hexadecimal. -/
theorem manifest_digest_is_md5 (fs : FSNode) (cli : Cli) (cwd : RPath) (now : Nat)
    (res : RunOk) (h : (runMain fs cli cwd now).2 = .ok res)
    (files : List RPath) (hres : resolvePaths fs cli.input = .ok files)
    (p : RPath) (hp : p ∈ files)
    (hinj : ∀ q ∈ files, q.render = p.render → fileContent fs q = fileContent fs p) :
    ∃ content, fileContent fs p = some content ∧
      calculateMd5 fs p = some (md5 content) ∧
      hmLookup res.hashes p.render = some (bytesHex (md5 content)) ∧
      ∀ ch ∈ (bytesHex (md5 content)).data, ch ∈ "0123456789abcdef".data := by
  rcases runMain_ok fs cli cwd now res h with ⟨fl, hres2, hall, hh, -, -, -⟩
  have hf : fl = files := by
    rw [hres] at hres2
    exact (Except.ok.inj hres2).symm
  subst hf
  have hsome := hall p hp
  cases hm : fileMeta fs p with
  | none => rw [hm] at hsome; cases hsome
  | some m =>
      refine ⟨m.content, by rw [fileContent_eq_meta, hm]; rfl, ?_, ?_,
        bytesHex_lowercase _⟩
      · rw [calculateMd5_eq, fileContent_eq_meta, hm]
        rfl
      · rw [hh]
        apply hashFold_lookup_mem fs fl [] p (bytesHex (md5 m.content)) hp
        · rw [digestOf, fileContent_eq_meta, hm]
          rfl
        · intro q hq hqr
          rw [digestOf, digestOf, hinj q hq hqr]

theorem manifest_digest_is_md5_witness :
    ∃ content, fileContent fsW pA = some content ∧
      calculateMd5 fsW pA = some (md5 content) ∧
      hmLookup (okOf (runMain fsW ⟨[pA], none, .bzip2⟩ cwdW 7).2).hashes pA.render
        = some (bytesHex (md5 content)) ∧
      ∀ ch ∈ (bytesHex (md5 content)).data, ch ∈ "0123456789abcdef".data :=
  manifest_digest_is_md5 fsW ⟨[pA], none, .bzip2⟩ cwdW 7
    (okOf (runMain fsW ⟨[pA], none, .bzip2⟩ cwdW 7).2) (by rfl)
    [pA] (by rfl) pA (by decide) (by decide)

/-- C5 (counterexample): on a successful run, a file entry's header does
not carry the fixed values the claim prescribes: the mode, ids and
mtime come from the file's own metadata (here mode `0o600`, uid/gid
500, mtime 42 against a capture time of 100). -/
theorem header_fixed_fields_counterexample :
    (runMain fsW ⟨[pA], none, .bzip2⟩ cwdW 100).2
      = .ok (okOf (runMain fsW ⟨[pA], none, .bzip2⟩ cwdW 100).2) ∧
    ∃ e ∈ (okOf (runMain fsW ⟨[pA], none, .bzip2⟩ cwdW 100).2).entries,
      ¬(e.header.mode = 0o644 ∧ e.header.uid = 0 ∧ e.header.gid = 0 ∧
        e.header.mtime = 100) :=
  ⟨by rfl, by decide⟩

/-- C5 (amended): every entry is a regular-file entry whose header
checksum is computed by the container format's own algorithm and whose
size field is its payload length; the manifest entry carries the fixed
values (mode 0644, uid/gid 0, mtime = the run's capture time); each
file entry's mode, uid, gid and mtime come from that file's on-disk
metadata instead. -/
theorem header_fields_amended (fs : FSNode) (cli : Cli) (cwd : RPath) (now : Nat)
    (res : RunOk) (h : (runMain fs cli cwd now).2 = .ok res) :
    (∀ e ∈ res.entries, e.header.typeflag = REGTYPE ∧
      e.header.cksum = tarHeaderChecksum e.header ∧
      e.header.size = e.payload.length) ∧
    (res.entries.getLast?.map fun e =>
        (e.header.name, e.header.mode, e.header.uid, e.header.gid, e.header.mtime))
      = some ("meta.json", 0o644, 0, 0, now) ∧
    (∀ e ∈ res.entries.dropLast, ∃ p m, fileMeta fs p = some m ∧
      e.header = appendFileHeader p.render m ∧
      e.header.mode = m.mode ∧ e.header.uid = m.uid ∧ e.header.gid = m.gid ∧
      e.header.mtime = m.mtime) := by
  rcases runMain_ok fs cli cwd now res h with ⟨files, hres, hall, hh, he, -, -⟩
  refine ⟨?_, ?_, ?_⟩
  · intro e hee
    rw [he] at hee
    rcases List.mem_append.1 hee with hfe | hme
    · rcases List.mem_map.1 hfe with ⟨p, hp, rfl⟩
      exact ⟨rfl, setCksum_valid
        { name := p.render, mode := (fileMetaD fs p).mode, uid := (fileMetaD fs p).uid,
          gid := (fileMetaD fs p).gid, size := (fileMetaD fs p).content.length,
          mtime := (fileMetaD fs p).mtime, typeflag := REGTYPE, devmajor := 0,
          devminor := 0, cksum := 0 }, rfl⟩
    · rcases List.mem_singleton.1 hme with rfl
      exact ⟨rfl, setCksum_valid
        { name := "meta.json", mode := 0o644, uid := 0, gid := 0,
          size := (manifestData now res.hashes).length, mtime := now,
          typeflag := REGTYPE, devmajor := 0, devminor := 0, cksum := 0 }, rfl⟩
  · rw [he, List.getLast?_concat]
    rfl
  · intro e hee
    rw [he, List.dropLast_concat] at hee
    rcases List.mem_map.1 hee with ⟨p, hp, rfl⟩
    have hsome := hall p hp
    cases hm : fileMeta fs p with
    | none => rw [hm] at hsome; cases hsome
    | some m =>
        have hmd : fileMetaD fs p = m := by
          rw [fileMetaD, hm]
          rfl
        refine ⟨p, m, hm, ?_, ?_, ?_, ?_, ?_⟩ <;>
          rw [show (fileEntry fs p).header
              = appendFileHeader p.render (fileMetaD fs p) from rfl, hmd] <;>
          rfl

theorem header_fields_amended_witness :
    ((okOf (runMain fsW ⟨[pA], none, .bzip2⟩ cwdW 100).2).entries.getLast?.map
        fun e => (e.header.name, e.header.mode, e.header.uid, e.header.gid,
          e.header.mtime))
      = some ("meta.json", 0o644, 0, 0, 100) :=
  (header_fields_amended fsW ⟨[pA], none, .bzip2⟩ cwdW 100
    (okOf (runMain fsW ⟨[pA], none, .bzip2⟩ cwdW 100).2) (by rfl)).2.1

/-- C6 (counterexample): two resolved files sharing the same entry name
(the same path given twice) collapse to a single checksum-record key:
two resolved files, one key. -/
theorem checksum_record_counterexample :
    resolvePaths fsW [pA, pA] = .ok [pA, pA] ∧
    (runMain fsW ⟨[pA, pA], none, .gzip⟩ cwdW 9).2
      = .ok (okOf (runMain fsW ⟨[pA, pA], none, .gzip⟩ cwdW 9).2) ∧
    (hmKeys (okOf (runMain fsW ⟨[pA, pA], none, .gzip⟩ cwdW 9).2).hashes).length = 1 ∧
    (1 : Nat) ≠ 2 :=
  ⟨by rfl, by rfl, by rfl, by decide⟩

/-- C6 (amended): the checksum record has exactly one entry per
distinct resolved entry name: its keys are distinct, a key is present
exactly when some resolved file renders to it, and the number of keys
equals the number of distinct entry names (a later file sharing an
entry name overwrites the earlier binding). -/
theorem checksum_record_amended (fs : FSNode) (cli : Cli) (cwd : RPath) (now : Nat)
    (res : RunOk) (h : (runMain fs cli cwd now).2 = .ok res) :
    ∃ files, resolvePaths fs cli.input = .ok files ∧
      (hmKeys res.hashes).Nodup ∧
      (∀ k, k ∈ hmKeys res.hashes ↔ ∃ p ∈ files, p.render = k) ∧
      (hmKeys res.hashes).length = (files.map RPath.render).dedup.length := by
  rcases runMain_ok fs cli cwd now res h with ⟨files, hres, hall, hh, -, -, -⟩
  have hcontent : ∀ p ∈ files, (fileContent fs p).isSome = true := by
    intro p hp
    have := hall p hp
    rw [fileContent_eq_meta]
    cases hm : fileMeta fs p with
    | none => rw [hm] at this; cases this
    | some m => rfl
  have hnd : (hmKeys res.hashes).Nodup := by
    rw [hh]
    exact hashFold_keys_nodup fs files [] (by simp [hmKeys])
  have hmem : ∀ k, k ∈ hmKeys res.hashes ↔ ∃ p ∈ files, p.render = k := by
    intro k
    rw [hh, hashFold_keys_mem fs files [] k hcontent]
    simp [hmKeys]
  refine ⟨files, hres, hnd, hmem, ?_⟩
  have hperm : (hmKeys res.hashes).Perm (files.map RPath.render).dedup := by
    rw [List.perm_ext_iff_of_nodup hnd (List.nodup_dedup _)]
    intro a
    rw [hmem a, List.mem_dedup, List.mem_map]
  exact hperm.length_eq

theorem checksum_record_amended_witness :
    ∃ files, resolvePaths fsW [pA, pD] = .ok files ∧
      (hmKeys (okOf (runMain fsW ⟨[pA, pD], none, .zlib⟩ cwdW 13).2).hashes).Nodup ∧
      (∀ k, k ∈ hmKeys (okOf (runMain fsW ⟨[pA, pD], none, .zlib⟩ cwdW 13).2).hashes
        ↔ ∃ p ∈ files, p.render = k) ∧
      (hmKeys (okOf (runMain fsW ⟨[pA, pD], none, .zlib⟩ cwdW 13).2).hashes).length
        = (files.map RPath.render).dedup.length :=
  checksum_record_amended fsW ⟨[pA, pD], none, .zlib⟩ cwdW 13
    (okOf (runMain fsW ⟨[pA, pD], none, .zlib⟩ cwdW 13).2) (by rfl)

/-- C7: the compression transform is never finalized as the claim
requires.  `main` calls only `tar.finish()` (the container terminator);
no explicit encoder finalization exists, and for the default Bzip2 kind
`create_encoder` boxes `bzip2::read::BzEncoder`, a read-side encoder
whose pass-through `Write` implementation forwards the archive bytes to
the file uncompressed and whose drop finalizes nothing: a successful
bzip2 run's trace contains no finalization event at all, explicit or
implicit. -/
theorem bzip2_never_finalized :
    (runMain fsW ⟨[pA], none, .bzip2⟩ cwdW 3).2
      = .ok (okOf (runMain fsW ⟨[pA], none, .bzip2⟩ cwdW 3).2) ∧
    (∀ b, Event.encoderFinalize b ∉ (runMain fsW ⟨[pA], none, .bzip2⟩ cwdW 3).1) ∧
    encoderDropFinalizes Comp.bzip2 = false ∧
    encoderWriteCompresses Comp.bzip2 = false :=
  ⟨by rfl, by decide, rfl, rfl⟩

/-- C4: output-path derivation satisfies the spec's rule and reference
examples: for a non-directory path whose final component has a
dot-separated extension, everything after the first `.` is stripped
(the first `.`-delimited segment is kept as the stem) and
`tar.<compression-suffix>` is appended; in particular
`sanitize_path("report.csv", Bzip2) = "report.tar.bz2"` and, with
`/tmp/outdir` a directory, `sanitize_path("/tmp/outdir/", Gzip) =
"/tmp/outdir/out.tar.gz"`. -/
theorem output_path_rule (fs : FSNode) (path : RPath) (comp : Comp)
    (init : List String) (f : String) (st rest : List Char)
    (hcomp : path.components = init ++ [f])
    (hsplit : splitOnceChars '.' f.data = some (st, rest))
    (hst : st ≠ [])
    (hnd : isDir fs path = false) :
    (sanitizePath fs path comp).components
      = init ++ [String.mk (st ++ '.' :: ("tar." ++ comp.repr).data)] ∧
    (sanitizePath (.dir .nil) ⟨false, ["report.csv"]⟩ .bzip2).render
      = "report.tar.bz2" ∧
    (sanitizePath (.dir (.cons "tmp" (.dir (.cons "outdir" (.dir .nil) .nil)) .nil))
      ⟨true, ["tmp", "outdir"]⟩ .gzip).render = "/tmp/outdir/out.tar.gz" := by
  refine ⟨?_, by decide, by decide⟩
  have hfn : path.fileName = some f := by
    rw [RPath.fileName, hcomp, List.getLast?_concat]
  have hfdata : f.data = st ++ '.' :: rest := splitOnce_eq_append '.' f.data st rest hsplit
  have hnodot : '.' ∉ st := splitOnce_pre_not_mem '.' f.data st rest hsplit
  have hne2 : f.data ≠ ['.', '.'] := by
    intro hdd
    rw [hdd, show splitOnceChars '.' ['.', '.'] = some ([], ['.']) from rfl] at hsplit
    have hpair := Option.some.inj hsplit
    exact hst (congrArg Prod.fst hpair).symm
  have hrev : f.data.reverse = rest.reverse ++ '.' :: st.reverse := by
    rw [hfdata]
    simp
  obtain ⟨a, b, hab, hblen⟩ := splitOnce_suffix '.' rest.reverse st.reverse
  have hbne : b ≠ [] := by
    intro hb
    rw [hb] at hblen
    simp only [List.length_nil, Nat.le_zero, List.length_reverse] at hblen
    exact hst (List.eq_nil_of_length_eq_zero hblen)
  have hsfad : splitFileAtDot f.data = (b.reverse, some a.reverse) := by
    rw [splitFileAtDot, if_neg hne2, hrev, hab]
    simp [hbne]
  have hext : path.extension = some (String.mk a.reverse) := by
    rw [RPath.extension, hfn]
    simp [hsfad]
  have hstage1 : sanitizePath fs path comp
      = (path.withFileName (String.mk st)).withExtension ("tar." ++ comp.repr) := by
    simp only [sanitizePath, hnd, Bool.not_false, if_true, hext, Option.isSome_some,
      hfn, Option.getD_some, hsplit, Option.map_some]
    rfl
  have hc1 : (path.withFileName (String.mk st)).components = init ++ [String.mk st] := by
    rw [RPath.withFileName, hcomp, List.dropLast_concat]
  have hfn2 : (path.withFileName (String.mk st)).fileName = some (String.mk st) := by
    rw [RPath.fileName, hc1, List.getLast?_concat]
  have hsfad2 : splitFileAtDot (String.mk st).data = (st, none) := by
    have hdd : st ≠ ['.', '.'] := by
      intro hdd
      exact hnodot (by rw [hdd]; exact List.mem_cons_self _ _)
    have hnodotrev : '.' ∉ st.reverse := fun hmm => hnodot (List.mem_reverse.1 hmm)
    rw [show (String.mk st).data = st from rfl, splitFileAtDot, if_neg hdd,
      splitOnce_of_not_mem '.' st.reverse hnodotrev]
  have hstr : String.mk st ++ "." ++ ("tar." ++ comp.repr)
      = String.mk (st ++ '.' :: ("tar." ++ comp.repr).data) := by
    apply String.ext
    simp [String.data_append]
  have hwe : (path.withFileName (String.mk st)).withExtension ("tar." ++ comp.repr)
      = (path.withFileName (String.mk st)).withFileName
          (String.mk st ++ "." ++ ("tar." ++ comp.repr)) := by
    rw [RPath.withExtension, hfn2]
    simp [hsfad2]
  rw [hstage1, hwe, RPath.withFileName, hc1, List.dropLast_concat, hstr]

theorem output_path_rule_witness :
    ((sanitizePath (.dir .nil) ⟨false, ["report.csv"]⟩ .bzip2).components
      = [] ++ [String.mk ("report".data ++ '.' :: ("tar." ++ Comp.repr .bzip2).data)]) ∧
    ((sanitizePath (.dir .nil) ⟨false, ["report.csv"]⟩ .bzip2).render
      = "report.tar.bz2") ∧
    ((sanitizePath (.dir (.cons "tmp" (.dir (.cons "outdir" (.dir .nil) .nil)) .nil))
      ⟨true, ["tmp", "outdir"]⟩ .gzip).render = "/tmp/outdir/out.tar.gz") :=
  output_path_rule (.dir .nil) ⟨false, ["report.csv"]⟩ .bzip2 [] "report.csv"
    "report".data "csv".data (by rfl) (by decide) (by decide) (by decide)

/-! ## Sanity examples -/

example : lookupNode (.dir (.cons "a" (.file ⟨[1], 0o644, 0, 0, 7⟩) .nil)) ["a"]
    = some (.file ⟨[1], 0o644, 0, 0, 7⟩) := rfl

example : pathExists (.dir (.cons "a" (.dir (.cons "b" .special .nil)) .nil))
    ⟨false, ["a", "b"]⟩ = true := by decide

example : bytesHex (md5 []) = "d41d8cd98f00b204e9800998ecf8427e" := by decide

example : bytesHex (md5 (strBytes "abc")) = "900150983cd24fb0d6963f7d28e17f72" := by
  decide

end Archiver
